import Mathlib

/-!
Verification of the crossword CSP solver in `generate.py`
(class `CrosswordCreator`): node consistency, AC-3, the consistency and
completeness checks, the MRV/degree and LCV heuristics, backtracking
search and the top-level `solve`.

The puzzle model (`crossword.py`: class `Crossword` with `variables`,
`words`, `overlaps`, `neighbors`) is not part of the source tree; it is
modelled from the spec (sections 3 and 6).  Everything in the
`CrosswordCreator` class is translated directly from `generate.py`.
-/

/-- Modelled from the spec: a slot direction, one of ACROSS, DOWN. -/
inductive Direction where
  | across
  | down
deriving DecidableEq, Repr

/-- Modelled from the spec: a `Variable` identifies one crossword slot by
row `i`, column `j`, `direction` and `length`; two variables are equal iff
all four attributes match (structural equality). The derived cell list is
not used by the solver and is omitted. -/
structure Variable where
  i : Nat
  j : Nat
  direction : Direction
  length : Nat
deriving DecidableEq, Repr

/-- A word; Python strings are modelled as lists of characters. -/
abbrev Word := List Char

/-- `word[k]` of Python, total: out-of-range reads give a default
character (Python would raise; in-range reads, which are the only ones
reachable on the solve path, agree). -/
def charAt (w : Word) (k : Nat) : Char := w.getD k ' '

/-- Modelled from the spec: the immutable puzzle model supplied by the
external loader (`crossword.py`): the set of variables (as a list), the
dictionary `words`, and the overlap map. -/
structure Crossword where
  vars : List Variable
  words : List Word
  overlaps : Variable → Variable → Option (Nat × Nat)

/-- Modelled from the spec: well-formedness of the puzzle model, as the
spec describes it: the variable set has no duplicates, no variable
overlaps itself, `overlaps` is symmetric with swapped offsets, and
overlap offsets index into the respective slots. -/
def WF (c : Crossword) : Prop :=
  c.vars.Nodup ∧
  (∀ x ∈ c.vars, c.overlaps x x = none) ∧
  (∀ x ∈ c.vars, ∀ y ∈ c.vars,
      c.overlaps y x = (c.overlaps x y).map (fun p => (p.2, p.1))) ∧
  (∀ x ∈ c.vars, ∀ y ∈ c.vars,
      (c.overlaps x y).all (fun p => p.1 < x.length && p.2 < y.length) = true)

instance (c : Crossword) : Decidable (WF c) := by
  unfold WF; infer_instance

/-- Modelled from the spec: `Crossword.neighbors(v)` — all variables
sharing a non-null overlap with `v`. -/
def neighbors (c : Crossword) (v : Variable) : List Variable :=
  c.vars.filter (fun w => w ≠ v ∧ (c.overlaps v w).isSome)

/-- The solver's mutable domain store `self.domains`: each variable's
current candidate word list. -/
abbrev Domains := Variable → List Word

/-- `self.domains` as initialised in `CrosswordCreator.__init__`: a copy
of the full word list for every variable. -/
def initDomains (c : Crossword) : Domains := fun _ => c.words

/-- Pointwise update of the domain store (`self.domains[x] = ...`). -/
def updateD (d : Domains) (x : Variable) (l : List Word) : Domains :=
  fun z => if z = x then l else d z

/-- The assignment threaded through `backtrack`: a Python dict from
variables to words, modelled as an insertion-ordered association list
with unique keys. -/
abbrev Assignment := List (Variable × Word)

/-- Python `var in assignment` / `assignment[var]` lookup. -/
def lookupA : Assignment → Variable → Option Word
  | [], _ => none
  | (k, w) :: rest, v => if k = v then some w else lookupA rest v

/-- Python `assignment[var] = value`: update in place if the key exists,
otherwise append at the end (dict insertion order). -/
def insertA : Assignment → Variable → Word → Assignment
  | [], v, w => [(v, w)]
  | (k, u) :: rest, v, w =>
      if k = v then (v, w) :: rest else (k, u) :: insertA rest v w

/-- Python `del assignment[var]` (no-op when the key is absent, which is
unreachable from `solve`; Python would raise `KeyError` there). -/
def eraseA : Assignment → Variable → Assignment
  | [], _ => []
  | (k, u) :: rest, v => if k = v then rest else (k, u) :: eraseA rest v

/-- `CrosswordCreator.enforce_node_consistency`: for each variable of the
crossword, keep exactly the words whose length equals the variable's
length. -/
def enforce_node_consistency (c : Crossword) (d : Domains) : Domains :=
  fun v =>
    if v ∈ c.vars then (d v).filter (fun w => w.length == v.length)
    else d v

/-- The support test inside `revise`: some `word_y` in `domain(y)` has
`word_x[i] == word_y[j]`. -/
def hasSupport (dy : List Word) (wx : Word) (i j : Nat) : Bool :=
  dy.any (fun wy => charAt wx i == charAt wy j)

/-- `CrosswordCreator.revise(x, y)`: if there is no overlap return
`False`; otherwise remove from `domain(x)` every word with no support in
`domain(y)` and return whether anything was removed.  Returns the flag
together with the updated domain store (the Python method mutates
`self.domains`). -/
def revise (c : Crossword) (d : Domains) (x y : Variable) :
    Bool × Domains :=
  match c.overlaps x y with
  | none => (false, d)
  | some (i, j) =>
      let keep := fun wx => hasSupport (d y) wx i j
      let revised := (d x).any (fun wx => !(keep wx))
      (revised, updateD d x ((d x).filter keep))

/-- Total word count of the domain store over the puzzle's variables;
used only as recursion fuel for the AC-3 work loop. -/
def totalSize (c : Crossword) (d : Domains) : Nat :=
  (c.vars.map (fun v => (d v).length)).sum

/-- The `while queue:` loop of `CrosswordCreator.ac3`, with explicit
fuel (`none` = fuel exhausted, which a sufficiency theorem rules out for
the fuel `ac3` passes).  The queue is a Python `deque` popped from the
right; it is modelled as a list whose head is the deque's right end, so
`pop` is head-matching and `append` is `cons`. -/
def ac3Loop (c : Crossword) :
    Nat → Domains → List (Variable × Variable) → Option (Bool × Domains)
  | 0, _, _ => none
  | _ + 1, d, [] => some (true, d)
  | fuel + 1, d, (x, y) :: rest =>
      let r := revise c d x y
      if r.1 then
        if (r.2 x).length = 0 then some (false, r.2)
        else
          ac3Loop c fuel r.2
            (((((neighbors c x).filter (fun z => z ≠ y)).map
                (fun z => (z, x)))).reverse ++ rest)
      else ac3Loop c fuel r.2 rest

/-- `CrosswordCreator.ac3(arcs)`: seed the queue (all arcs `(x, y)` with
`y` a neighbor of `x` when `arcs is None`), then run the work loop.  The
Python code seeds the deque left-to-right in generation order, so the
model reverses the generated list to put the deque's right end at the
head. -/
def ac3 (c : Crossword) (d : Domains)
    (arcs : Option (List (Variable × Variable))) : Option (Bool × Domains) :=
  let queue : List (Variable × Variable) :=
    match arcs with
    | some l => l.reverse
    | none =>
        ((c.vars.map (fun x => (neighbors c x).map (fun y => (x, y)))).flatten).reverse
  ac3Loop c (totalSize c d * (c.vars.length + 1) + queue.length + 1) d queue

/-- `CrosswordCreator.assignment_complete`: the assignment has as many
entries as the crossword has variables and every key is a crossword
variable.  (The Python code also rejects a value that `is None`; in this
typed model every entry holds an actual word, so that test is vacuous.) -/
def assignment_complete (c : Crossword) (a : Assignment) : Bool :=
  if a.length ≠ c.vars.length then false
  else a.all (fun p => p.1 ∈ c.vars)

/-- The `contains_duplicates` helper inside `consistent`:
`len(elements) != len(set(elements))`. -/
def contains_duplicates (l : List Word) : Bool :=
  l.length != l.dedup.length

/-- `CrosswordCreator.consistent`: all assigned words distinct, every
word of its variable's length, and assigned neighboring variables agree
at their overlap offsets. -/
def consistent (c : Crossword) (a : Assignment) : Bool :=
  if contains_duplicates (a.map Prod.snd) then false
  else if !(a.all (fun p => p.2.length == p.1.length)) then false
  else
    a.all (fun pa =>
      (neighbors c pa.1).all (fun vb =>
        match lookupA a vb with
        | none => true
        | some wb =>
            match c.overlaps pa.1 vb with
            | none => true
            | some (i, j) => charAt pa.2 i == charAt wb j))

/-- Stable insertion into a sorted list: a new element goes before the
first element it compares `le` to, hence after earlier equal elements. -/
def insertLe (le : Word → Word → Bool) (x : Word) : List Word → List Word
  | [] => [x]
  | y :: ys => if le x y then x :: y :: ys else y :: insertLe le x ys

/-- Python's stable `sorted(l, key=...)`, modelled as stable insertion
sort (structurally recursive so that proofs can evaluate it). -/
def pySorted (le : Word → Word → Bool) : List Word → List Word
  | [] => []
  | x :: xs => insertLe le x (pySorted le xs)

/-- `CrosswordCreator.order_domain_values`: sort the domain of `var`
ascending by how many words it rules out across unassigned neighbors
(LCV); Python's `sorted` is stable, as is `pySorted`. -/
def order_domain_values (c : Crossword) (d : Domains) (a : Assignment)
    (var : Variable) : List Word :=
  let unassignedNeighbors :=
    (neighbors c var).filter (fun nb => (lookupA a nb).isNone)
  let ruleOutCount := fun (wa : Word) =>
    (unassignedNeighbors.map (fun vb =>
      match c.overlaps var vb with
      | none => 0
      | some (i, j) =>
          ((d vb).filter (fun wb => !(charAt wa i == charAt wb j))).length)).sum
  pySorted (fun w1 w2 => Nat.ble (ruleOutCount w1) (ruleOutCount w2)) (d var)

/-- Python's `min(l, key=key)` for the MRV key `(remaining, -degree)`:
the first element attaining the lexicographically least key.  `none` only
on the empty list, where Python raises `ValueError` (unreachable from
`solve`). -/
def keyLt (k1 k2 : Nat × Int) : Bool :=
  k1.1 < k2.1 || (k1.1 == k2.1 && k1.2 < k2.2)

def pyMinBy (key : Variable → Nat × Int) : List Variable → Option Variable
  | [] => none
  | v :: vs =>
      some (vs.foldl (fun best x => if keyLt (key x) (key best) then x else best) v)

/-- `CrosswordCreator.select_unassigned_variable`: among the variables
not in the assignment, the one minimising `(len(domain), -degree)`. -/
def select_unassigned_variable (c : Crossword) (d : Domains)
    (a : Assignment) : Option Variable :=
  let unassigned := c.vars.filter (fun v => (lookupA a v).isNone)
  pyMinBy (fun v => ((d v).length, -((neighbors c v).length : Int))) unassigned

/-- The `for value in self.order_domain_values(...)` loop body of
`CrosswordCreator.backtrack`: tentatively assign, recurse when
consistent, return a truthy solution, otherwise undo the tentative
assignment and try the next value.  `rec` is the recursive call at the
next depth; the second component threads the mutable dict's state
(Python shares one dict across frames).  Python's `if solution:` is a
truthiness test, so a `some []` result falls through like `None`. -/
def btTry (c : Crossword) (rec : Assignment → Option Assignment × Assignment)
    (var : Variable) : List Word → Assignment → Option Assignment × Assignment
  | [], a => (none, a)
  | w :: ws, a =>
      let a1 := insertA a var w
      if consistent c a1 then
        let r := rec a1
        match r.1 with
        | some s =>
            if s.isEmpty then btTry c rec var ws (eraseA r.2 var)
            else (some s, r.2)
        | none => btTry c rec var ws (eraseA r.2 var)
      else btTry c rec var ws (eraseA a1 var)

/-- `CrosswordCreator.backtrack`, with explicit recursion fuel (Python's
recursion depth is bounded by the number of variables, and `solve`
passes fuel exceeding that bound): return a complete assignment, else
pick a variable by MRV+degree and try its values in LCV order.  The
fuel-0 branch is unreachable from `solve`.  When selection finds no
unassigned variable (where Python's `min` would raise, unreachable from
`solve`) the frame fails. -/
def btGo (c : Crossword) (d : Domains) :
    Nat → Assignment → Option Assignment × Assignment
  | 0, a => (none, a)
  | fuel + 1, a =>
      if assignment_complete c a then (some a, a)
      else
        match select_unassigned_variable c d a with
        | none => (none, a)
        | some var =>
            btTry c (btGo c d fuel) var (order_domain_values c d a var) a

/-- `CrosswordCreator.solve`: node consistency, then `ac3()` — whose
boolean result the source discards — then backtracking from the empty
assignment on the propagated domains. -/
def solve (c : Crossword) : Option Assignment :=
  let d1 := enforce_node_consistency c (initDomains c)
  match ac3 c d1 none with
  | some (_, d2) => (btGo c d2 (c.vars.length + 1) []).1
  | none => none


/-! ### Association-list (Python dict) lemmas -/

/-- The keys of an assignment, in insertion order. -/
def keysA (a : Assignment) : List Variable := a.map Prod.fst

theorem lookupA_eq_none {a : Assignment} {v : Variable} :
    lookupA a v = none ↔ v ∉ keysA a := by
  induction a with
  | nil => simp [lookupA, keysA]
  | cons p rest ih =>
      obtain ⟨k, w⟩ := p
      by_cases h : k = v
      · subst h; simp [lookupA, keysA]
      · simp [lookupA, keysA, h, Ne.symm h] at ih ⊢; exact ih

theorem lookupA_some_mem {a : Assignment} {v : Variable} {w : Word}
    (h : lookupA a v = some w) : (v, w) ∈ a := by
  induction a with
  | nil => simp [lookupA] at h
  | cons p rest ih =>
      obtain ⟨k, u⟩ := p
      by_cases hk : k = v
      · subst hk
        simp [lookupA] at h
        simp [h]
      · simp [lookupA, hk] at h
        exact List.mem_cons_of_mem _ (ih h)

theorem mem_lookupA {a : Assignment} {v : Variable} {w : Word}
    (hnd : (keysA a).Nodup) (h : (v, w) ∈ a) : lookupA a v = some w := by
  induction a with
  | nil => simp at h
  | cons p rest ih =>
      obtain ⟨k, u⟩ := p
      simp [keysA] at hnd
      rcases List.mem_cons.1 h with h1 | h1
      · cases h1
        simp [lookupA]
      · have hk : k ≠ v := by
          rintro rfl
          exact hnd.1 w h1
        simp [lookupA, hk]
        exact ih hnd.2 h1

theorem insertA_not_mem {a : Assignment} {v : Variable} (w : Word)
    (h : v ∉ keysA a) : insertA a v w = a ++ [(v, w)] := by
  induction a with
  | nil => simp [insertA]
  | cons p rest ih =>
      obtain ⟨k, u⟩ := p
      simp [keysA] at h
      simp [insertA, Ne.symm h.1, ih (by simpa [keysA] using h.2)]

theorem eraseA_append_not_mem {a : Assignment} {v : Variable} (w : Word)
    (h : v ∉ keysA a) : eraseA (a ++ [(v, w)]) v = a := by
  induction a with
  | nil => simp [eraseA]
  | cons p rest ih =>
      obtain ⟨k, u⟩ := p
      simp [keysA] at h
      simp [eraseA, Ne.symm h.1, ih (by simpa [keysA] using h.2)]

theorem eraseA_insertA {a : Assignment} {v : Variable} (w : Word)
    (h : v ∉ keysA a) : eraseA (insertA a v w) v = a := by
  rw [insertA_not_mem w h, eraseA_append_not_mem w h]

theorem keysA_insertA_not_mem {a : Assignment} {v : Variable} (w : Word)
    (h : v ∉ keysA a) : keysA (insertA a v w) = keysA a ++ [v] := by
  rw [insertA_not_mem w h]; simp [keysA]

theorem mem_insertA {a : Assignment} {v : Variable} {w : Word} {p : Variable × Word}
    (h : p ∈ insertA a v w) : p ∈ a ∨ p = (v, w) := by
  induction a with
  | nil => simp [insertA] at h; simp [h]
  | cons q rest ih =>
      obtain ⟨k, u⟩ := q
      by_cases hk : k = v
      · subst hk
        simp [insertA] at h
        rcases h with h | h
        · right; simp [h]
        · left; exact List.mem_cons_of_mem _ h
      · simp [insertA, hk] at h
        rcases h with h | h
        · left; simp [h]
        · rcases ih h with h1 | h1
          · left; exact List.mem_cons_of_mem _ h1
          · right; exact h1

theorem length_insertA_not_mem {a : Assignment} {v : Variable} (w : Word)
    (h : v ∉ keysA a) : (insertA a v w).length = a.length + 1 := by
  rw [insertA_not_mem w h]; simp

/-! ### Sorting and minimum lemmas -/

theorem mem_insertLe {le : Word → Word → Bool} {x w : Word} {l : List Word} :
    w ∈ insertLe le x l ↔ w = x ∨ w ∈ l := by
  induction l with
  | nil => simp [insertLe]
  | cons y ys ih =>
      by_cases h : le x y = true
      · simp [insertLe, h]
      · simp [insertLe, h, ih]
        tauto

theorem mem_pySorted {le : Word → Word → Bool} {w : Word} {l : List Word} :
    w ∈ pySorted le l ↔ w ∈ l := by
  induction l with
  | nil => simp [pySorted]
  | cons x xs ih => simp [pySorted, mem_insertLe, ih]

theorem mem_order_domain_values {c : Crossword} {d : Domains} {a : Assignment}
    {var : Variable} {w : Word} (h : w ∈ order_domain_values c d a var) :
    w ∈ d var := by
  unfold order_domain_values at h
  exact mem_pySorted.1 h

theorem foldl_min_mem {key : Variable → Nat × Int} :
    ∀ (l : List Variable) (b : Variable),
      (l.foldl (fun best x => if keyLt (key x) (key best) then x else best) b) = b ∨
      (l.foldl (fun best x => if keyLt (key x) (key best) then x else best) b) ∈ l := by
  intro l
  induction l with
  | nil => intro b; simp
  | cons x xs ih =>
      intro b
      simp only [List.foldl_cons]
      rcases ih (if keyLt (key x) (key b) then x else b) with h1 | h1
      · rw [h1]
        by_cases h : keyLt (key x) (key b) = true
        · right; simp [h]
        · left; simp [h]
      · right; exact List.mem_cons_of_mem _ h1

theorem pyMinBy_mem {key : Variable → Nat × Int} {l : List Variable} {v : Variable}
    (h : pyMinBy key l = some v) : v ∈ l := by
  cases l with
  | nil => simp [pyMinBy] at h
  | cons x xs =>
      simp [pyMinBy] at h
      rcases @foldl_min_mem key xs x with h1 | h1
      · rw [h] at h1; simp [h1]
      · rw [h] at h1; exact List.mem_cons_of_mem _ h1

theorem select_some {c : Crossword} {d : Domains} {a : Assignment} {v : Variable}
    (h : select_unassigned_variable c d a = some v) :
    v ∈ c.vars ∧ lookupA a v = none := by
  unfold select_unassigned_variable at h
  have := pyMinBy_mem h
  simp only [List.mem_filter] at this
  exact ⟨this.1, by simpa [Option.isNone_iff_eq_none] using this.2⟩

/-! ### `revise` lemmas -/

/-- Arc consistency of `x` with `y` at overlap offsets `(i, j)`. -/
def arcCon (d : Domains) (x y : Variable) (i j : Nat) : Prop :=
  ∀ wx ∈ d x, ∃ wy ∈ d y, charAt wx i = charAt wy j

theorem revise_none {c : Crossword} {d : Domains} {x y : Variable}
    (h : c.overlaps x y = none) : revise c d x y = (false, d) := by
  simp [revise, h]

theorem revise_snd_x {c : Crossword} {d : Domains} {x y : Variable} {i j : Nat}
    (h : c.overlaps x y = some (i, j)) :
    (revise c d x y).2 x = (d x).filter (fun wx => hasSupport (d y) wx i j) := by
  simp [revise, h, updateD]

theorem revise_snd_other {c : Crossword} {d : Domains} {x y z : Variable}
    (hz : z ≠ x) : (revise c d x y).2 z = d z := by
  unfold revise
  rcases h : c.overlaps x y with _ | ⟨i, j⟩
  · rfl
  · simp [updateD, hz]

theorem revise_fst_true {c : Crossword} {d : Domains} {x y : Variable} {i j : Nat}
    (h : c.overlaps x y = some (i, j)) :
    ((revise c d x y).1 = true ↔
      ∃ wx ∈ d x, ∀ wy ∈ d y, charAt wx i ≠ charAt wy j) := by
  simp [revise, h, hasSupport, List.any_eq_true]

theorem revise_subset {c : Crossword} {d : Domains} {x y : Variable} (z : Variable) :
    (revise c d x y).2 z ⊆ d z := by
  unfold revise
  rcases h : c.overlaps x y with _ | ⟨i, j⟩
  · exact fun w hw => hw
  · simp only [updateD]
    by_cases hz : z = x
    · subst hz; simp [List.filter_subset]
    · simp [hz]

theorem revise_fst_false {c : Crossword} {d : Domains} {x y : Variable}
    (h : (revise c d x y).1 = false) : (revise c d x y).2 = d := by
  unfold revise at h ⊢
  rcases ho : c.overlaps x y with _ | ⟨i, j⟩
  · rfl
  · simp only [ho] at h ⊢
    simp only [List.any_eq_false, Bool.not_eq_true'] at h
    have : (d x).filter (fun wx => hasSupport (d y) wx i j) = d x := by
      apply List.filter_eq_self.2
      intro w hw
      have := h w hw
      simpa using this
    rw [this]
    funext z
    simp only [updateD]
    by_cases hz : z = x
    · subst hz; simp
    · simp [hz]

/-- After `revise c d x y` with overlap `(i, j)`, `x` is arc consistent
with `y` (provided `y ≠ x`, so that `domain(y)` is untouched). -/
theorem revise_post {c : Crossword} {d : Domains} {x y : Variable} {i j : Nat}
    (h : c.overlaps x y = some (i, j)) (hxy : y ≠ x) :
    arcCon (revise c d x y).2 x y i j := by
  intro wx hwx
  rw [revise_snd_x h] at hwx
  rw [revise_snd_other hxy]
  rcases List.mem_filter.1 hwx with ⟨_, hk⟩
  simp only [hasSupport, List.any_eq_true, beq_iff_eq] at hk
  exact hk

/-- The classic AC-3 observation: revising `(x, y)` cannot break arc
consistency of the reverse arc `(y, x)` — a word removed from
`domain(x)` supported no word of `domain(y)`. -/
theorem revise_preserves_reverse {c : Crossword} {d : Domains} {x y : Variable}
    {i j : Nat} (h : c.overlaps x y = some (i, j)) (hxy : y ≠ x)
    (hcon : arcCon d y x j i) :
    arcCon (revise c d x y).2 y x j i := by
  intro wy hwy
  rw [revise_snd_other hxy] at hwy
  rcases hcon wy hwy with ⟨wx, hwx, heq⟩
  refine ⟨wx, ?_, heq⟩
  rw [revise_snd_x h]
  refine List.mem_filter.2 ⟨hwx, ?_⟩
  simp only [hasSupport, List.any_eq_true, beq_iff_eq]
  exact ⟨wy, hwy, heq.symm⟩

/-- Shrinking the left domain, keeping the right, preserves arc
consistency. -/
theorem arcCon_mono {d d' : Domains} {u v : Variable} {i j : Nat}
    (hsub : d' u ⊆ d u) (hsame : d' v = d v) (hcon : arcCon d u v i j) :
    arcCon d' u v i j := by
  intro wu hwu
  rcases hcon wu (hsub hwu) with ⟨wv, hwv, heq⟩
  exact ⟨wv, hsame ▸ hwv, heq⟩

/-! ### Node consistency lemmas -/

theorem enforce_mem {c : Crossword} {d : Domains} {v : Variable}
    (hv : v ∈ c.vars) :
    enforce_node_consistency c d v = (d v).filter (fun w => w.length == v.length) := by
  simp [enforce_node_consistency, hv]

theorem enforce_length {c : Crossword} {d : Domains} {v : Variable}
    (hv : v ∈ c.vars) {w : Word} (hw : w ∈ enforce_node_consistency c d v) :
    w.length = v.length := by
  rw [enforce_mem hv] at hw
  simpa using (List.mem_filter.1 hw).2

theorem enforce_idem (c : Crossword) (d : Domains) :
    enforce_node_consistency c (enforce_node_consistency c d) =
      enforce_node_consistency c d := by
  funext v
  unfold enforce_node_consistency
  by_cases hv : v ∈ c.vars
  · simp only [hv, if_true]
    rw [List.filter_filter]
    apply List.filter_congr
    intro w _
    simp [Bool.and_self]
  · simp [hv]

/-! ### AC-3 loop lemmas -/

theorem filter_length_lt {l : List Word} {p : Word → Bool} {w : Word}
    (hw : w ∈ l) (hpw : p w = false) : (l.filter p).length < l.length := by
  induction l with
  | nil => simp at hw
  | cons y ys ih =>
      by_cases hy : p y = true
      · have hwy : w ∈ ys := by
          rcases List.mem_cons.1 hw with rfl | hmem
          · rw [hy] at hpw; cases hpw
          · exact hmem
        rw [List.filter_cons_of_pos hy]
        simpa using Nat.succ_lt_succ (ih hwy)
      · rw [List.filter_cons_of_neg (by simpa using hy)]
        exact Nat.lt_succ_of_le (List.length_filter_le _ _)

theorem sum_map_lt {l : List Variable} {f g : Variable → Nat}
    (hle : ∀ z ∈ l, f z ≤ g z) {x : Variable} (hx : x ∈ l) (hlt : f x < g x) :
    (l.map f).sum < (l.map g).sum := by
  induction l with
  | nil => simp at hx
  | cons y ys ih =>
      simp only [List.map_cons, List.sum_cons]
      rcases List.mem_cons.1 hx with rfl | hmem
      · have h2 : ((ys.map f).sum ≤ (ys.map g).sum) :=
          List.sum_le_sum (fun z hz => hle z (List.mem_cons_of_mem _ hz))
        omega
      · have h1 : f y ≤ g y := hle y (List.mem_cons_self _ _)
        have h2 := ih (fun z hz => hle z (List.mem_cons_of_mem _ hz)) hmem
        omega

theorem revise_sublist {c : Crossword} {d : Domains} {x y : Variable} (z : Variable) :
    List.Sublist ((revise c d x y).2 z) (d z) := by
  unfold revise
  rcases h : c.overlaps x y with _ | ⟨i, j⟩
  · exact List.Sublist.refl _
  · simp only [updateD]
    by_cases hz : z = x
    · subst hz; simp [List.filter_sublist]
    · simp [hz]

theorem revise_totalSize_lt {c : Crossword} {d : Domains} {x y : Variable}
    (hx : x ∈ c.vars) (h : (revise c d x y).1 = true) :
    totalSize c (revise c d x y).2 < totalSize c d := by
  unfold totalSize
  rcases ho : c.overlaps x y with _ | ⟨i, j⟩
  · rw [revise_none ho] at h; simp at h
  · have hlt : ((revise c d x y).2 x).length < (d x).length := by
      rw [revise_snd_x ho]
      rcases (revise_fst_true ho).1 h with ⟨wx, hwx, hbad⟩
      apply filter_length_lt hwx
      simp only [hasSupport, List.any_eq_false, beq_iff_eq]
      exact hbad
    exact sum_map_lt (fun z _ => (revise_sublist z).length_le) hx hlt

theorem ac3Loop_subset {c : Crossword} :
    ∀ fuel (d : Domains) (q : List (Variable × Variable)) {b : Bool} {d' : Domains},
      ac3Loop c fuel d q = some (b, d') → ∀ v, d' v ⊆ d v := by
  intro fuel
  induction fuel with
  | zero =>
      intro d q b d' h
      rw [ac3Loop.eq_def] at h
      simp at h
  | succ n ih =>
      intro d q b d' h
      match q with
      | [] =>
          rw [ac3Loop.eq_def] at h
          simp at h
          rw [h.2]
          exact fun v => List.Subset.refl _
      | (x, y) :: rest =>
          rw [ac3Loop.eq_def] at h
          simp only at h
          by_cases hr : (revise c d x y).1 = true
          · rw [if_pos hr] at h
            by_cases hemp : ((revise c d x y).2 x).length = 0
            · rw [if_pos hemp] at h
              injection h with h1
              injection h1 with _ h2
              rw [← h2]
              exact fun v => revise_subset v
            · rw [if_neg hemp] at h
              intro v
              exact (ih _ _ h v).trans (revise_subset v)
          · simp only [hr, if_false] at h
            intro v
            exact (ih _ _ h v).trans (revise_subset v)

theorem overlaps_symm_some {c : Crossword} (hwf : WF c) {a b : Variable} {i j : Nat}
    (ha : a ∈ c.vars) (hb : b ∈ c.vars) (h : c.overlaps a b = some (i, j)) :
    c.overlaps b a = some (j, i) := by
  have hs := hwf.2.2.1 a ha b hb
  rw [h] at hs
  simpa using hs

theorem overlaps_ne {c : Crossword} (hwf : WF c) {a b : Variable} {i j : Nat}
    (ha : a ∈ c.vars) (h : c.overlaps a b = some (i, j)) : b ≠ a := by
  intro he
  rw [he] at h
  rw [hwf.2.1 a ha] at h
  cases h

theorem mem_neighbors {c : Crossword} {v z : Variable} :
    z ∈ neighbors c v ↔ z ∈ c.vars ∧ z ≠ v ∧ (c.overlaps v z).isSome := by
  simp [neighbors]

/-- Invariant-based postcondition of the AC-3 work loop: if every
overlapping ordered pair is either queued or already arc consistent, and
the loop drains the queue successfully, then every overlapping ordered
pair is arc consistent in the final domains. -/
theorem ac3Loop_arcCon {c : Crossword} (hwf : WF c) :
    ∀ fuel (d : Domains) (q : List (Variable × Variable)) {d' : Domains},
      (∀ u v i j, u ∈ c.vars → v ∈ c.vars → c.overlaps u v = some (i, j) →
         (u, v) ∈ q ∨ arcCon d u v i j) →
      ac3Loop c fuel d q = some (true, d') →
      ∀ u v i j, u ∈ c.vars → v ∈ c.vars → c.overlaps u v = some (i, j) →
        arcCon d' u v i j := by
  intro fuel
  induction fuel with
  | zero =>
      intro d q d' hinv h
      rw [ac3Loop.eq_def] at h
      simp at h
  | succ n ih =>
      intro d q d' hinv h
      match q with
      | [] =>
          rw [ac3Loop.eq_def] at h
          simp at h
          subst h
          intro u v i j hu hv hov
          rcases hinv u v i j hu hv hov with hq | hcon
          · simp at hq
          · exact hcon
      | (x, y) :: rest =>
          rw [ac3Loop.eq_def] at h
          simp only at h
          by_cases hr : (revise c d x y).1 = true
          · rw [if_pos hr] at h
            by_cases hemp : ((revise c d x y).2 x).length = 0
            · rw [if_pos hemp] at h
              exact absurd h (by simp)
            · rw [if_neg hemp] at h
              apply ih _ _ ?_ h
              intro u v i j hu hv hov
              by_cases hrest : (u, v) ∈ rest
              · left; exact List.mem_append_right _ hrest
              · rcases hinv u v i j hu hv hov with hq | hcon
                · rcases List.mem_cons.1 hq with heq | hmem
                  · -- the popped arc (x, y) itself: revise establishes it
                    injection heq with h1 h2
                    subst h1; subst h2
                    right
                    exact revise_post hov (overlaps_ne hwf hu hov)
                  · exact absurd hmem hrest
                · by_cases hvx : v = x
                  · by_cases huy : u = y
                    · -- the reverse arc (y, x): never broken by revise
                      right
                      rw [hvx, huy] at hov hcon ⊢
                      rw [huy] at hu
                      rw [hvx] at hv
                      have hxy : c.overlaps x y = some (j, i) :=
                        overlaps_symm_some hwf hu hv hov
                      exact revise_preserves_reverse hxy
                        (overlaps_ne hwf hv hxy) hcon
                    · -- a re-enqueued arc (u, x)
                      left
                      rw [hvx]
                      apply List.mem_append_left
                      rw [List.mem_reverse, List.mem_map]
                      rw [hvx] at hov hv
                      have hxu : c.overlaps x u = some (j, i) :=
                        overlaps_symm_some hwf hu hv hov
                      refine ⟨u, List.mem_filter.2 ⟨?_, by simpa using huy⟩, rfl⟩
                      rw [mem_neighbors]
                      exact ⟨hu, overlaps_ne hwf hv hxu, by rw [hxu]; rfl⟩
                  · right
                    exact arcCon_mono (revise_subset u) (revise_snd_other hvx) hcon
          · rw [if_neg hr] at h
            have hd : (revise c d x y).2 = d :=
              revise_fst_false (Bool.not_eq_true _ ▸ hr)
            rw [hd] at h
            apply ih _ _ ?_ h
            intro u v i j hu hv hov
            rcases hinv u v i j hu hv hov with hq | hcon
            · rcases List.mem_cons.1 hq with heq | hmem
              · injection heq with h1 h2
                subst h1; subst h2
                right
                intro wx hwx
                by_contra hnone
                push_neg at hnone
                apply hr
                rw [revise_fst_true hov]
                exact ⟨wx, hwx, hnone⟩
              · left; exact hmem
            · right; exact hcon

/-- Every ordered pair with a non-null overlap is in the default seed
queue of `ac3`. -/
theorem mem_seed {c : Crossword} {u v : Variable} {i j : Nat} (hwf : WF c)
    (hu : u ∈ c.vars) (hv : v ∈ c.vars) (hov : c.overlaps u v = some (i, j)) :
    (u, v) ∈ ((c.vars.map (fun x => (neighbors c x).map (fun y => (x, y)))).flatten).reverse := by
  rw [List.mem_reverse, List.mem_flatten]
  refine ⟨(neighbors c u).map (fun y => (u, y)), List.mem_map_of_mem _ hu, ?_⟩
  rw [List.mem_map]
  refine ⟨v, ?_, rfl⟩
  rw [mem_neighbors]
  exact ⟨hv, overlaps_ne hwf hu hov, by rw [hov]; rfl⟩

/-- The AC-3 postcondition: a successful default-arcs run leaves every
overlapping ordered pair arc consistent. -/
theorem ac3_arcCon {c : Crossword} (hwf : WF c) {d d' : Domains}
    (h : ac3 c d none = some (true, d')) :
    ∀ u v i j, u ∈ c.vars → v ∈ c.vars → c.overlaps u v = some (i, j) →
      arcCon d' u v i j := by
  unfold ac3 at h
  apply ac3Loop_arcCon hwf _ _ _ ?_ h
  intro u v i j hu hv hov
  left
  exact mem_seed hwf hu hv hov

theorem ac3_subset {c : Crossword} {d d' : Domains} {b : Bool}
    {arcs : Option (List (Variable × Variable))}
    (h : ac3 c d arcs = some (b, d')) : ∀ v, d' v ⊆ d v := by
  unfold ac3 at h
  exact fun v => ac3Loop_subset _ _ _ h v

/-- Fuel sufficiency for the AC-3 work loop: the loop terminates before
the fuel `ac3` provides runs out, as long as every queued arc's first
component is a puzzle variable (true for the default seeding and for all
re-enqueued arcs). -/
theorem ac3Loop_isSome {c : Crossword} :
    ∀ fuel (d : Domains) (q : List (Variable × Variable)),
      (∀ p ∈ q, p.1 ∈ c.vars) →
      totalSize c d * (c.vars.length + 1) + q.length + 1 ≤ fuel →
      (ac3Loop c fuel d q).isSome := by
  intro fuel
  induction fuel with
  | zero =>
      intro d q hq hf
      exact absurd hf (by omega)
  | succ n ih =>
      intro d q hq hf
      match q with
      | [] => rw [ac3Loop.eq_def]; simp
      | (x, y) :: rest =>
          rw [ac3Loop.eq_def]
          simp only
          by_cases hr : (revise c d x y).1 = true
          · rw [if_pos hr]
            by_cases hemp : ((revise c d x y).2 x).length = 0
            · rw [if_pos hemp]; simp
            · rw [if_neg hemp]
              apply ih
              · intro p hp
                rcases List.mem_append.1 hp with hp | hp
                · rw [List.mem_reverse, List.mem_map] at hp
                  rcases hp with ⟨z, hz, rfl⟩
                  exact (mem_neighbors.1 (List.mem_of_mem_filter hz)).1
                · exact hq _ (List.mem_cons_of_mem _ hp)
              · have hx : x ∈ c.vars := hq (x, y) (List.mem_cons_self _ _)
                have hlt := revise_totalSize_lt hx hr
                have hlen : ((((neighbors c x).filter (fun z => z ≠ y)).map
                    (fun z => (z, x))).reverse).length ≤ c.vars.length := by
                  rw [List.length_reverse, List.length_map]
                  calc (((neighbors c x).filter (fun z => z ≠ y))).length
                      ≤ (neighbors c x).length := List.length_filter_le _ _
                    _ ≤ c.vars.length := List.length_filter_le _ _
                have hmul : (totalSize c (revise c d x y).2 + 1) * (c.vars.length + 1)
                    ≤ totalSize c d * (c.vars.length + 1) :=
                  Nat.mul_le_mul_right _ hlt
                have hexp : (totalSize c (revise c d x y).2 + 1) * (c.vars.length + 1)
                    = totalSize c (revise c d x y).2 * (c.vars.length + 1)
                      + (c.vars.length + 1) := by ring
                rw [hexp] at hmul
                rw [List.length_append]
                simp only [List.length_cons] at hf
                omega
          · rw [if_neg hr]
            have hd : (revise c d x y).2 = d :=
              revise_fst_false (Bool.not_eq_true _ ▸ hr)
            rw [hd]
            apply ih
            · intro p hp
              exact hq _ (List.mem_cons_of_mem _ hp)
            · simp only [List.length_cons] at hf
              omega

/-- `ac3` with default arcs always returns (its fuel suffices). -/
theorem ac3_isSome_default (c : Crossword) (d : Domains) :
    (ac3 c d none).isSome := by
  unfold ac3
  apply ac3Loop_isSome
  · intro p hp
    rw [List.mem_reverse, List.mem_flatten] at hp
    rcases hp with ⟨l, hl, hpl⟩
    rw [List.mem_map] at hl
    rcases hl with ⟨x, hx, rfl⟩
    rw [List.mem_map] at hpl
    rcases hpl with ⟨y, hy, rfl⟩
    exact hx
  · exact le_rfl

/-! ### `assignment_complete` and `consistent` characterisations -/

theorem contains_duplicates_eq_false {l : List Word} :
    contains_duplicates l = false ↔ l.Nodup := by
  unfold contains_duplicates
  constructor
  · intro h
    have hlen : l.length = l.dedup.length := by simpa using h
    have hsub := List.dedup_sublist l
    have heq : l.dedup = l := hsub.eq_of_length hlen.symm
    rw [← heq]
    exact List.nodup_dedup l
  · intro h
    rw [List.dedup_eq_self.2 h]
    exact bne_self_eq_false _

theorem assignment_complete_iff {c : Crossword} {a : Assignment} :
    assignment_complete c a = true ↔
      a.length = c.vars.length ∧ ∀ p ∈ a, p.1 ∈ c.vars := by
  unfold assignment_complete
  by_cases h : a.length = c.vars.length
  · simp [h, List.all_eq_true]
  · simp [h]

theorem consistent_true_iff {c : Crossword} {a : Assignment} :
    consistent c a = true ↔
      ((a.map Prod.snd).Nodup ∧
       (∀ p ∈ a, (p.2 : Word).length = (p.1 : Variable).length) ∧
       (∀ pa ∈ a, ∀ vb ∈ neighbors c pa.1, ∀ wb, lookupA a vb = some wb →
          ∀ i j, c.overlaps (Prod.fst pa) vb = some (i, j) →
            charAt pa.2 i = charAt wb j)) := by
  unfold consistent
  split_ifs with hdup hall
  · simp only [false_iff]
    rintro ⟨h1, -, -⟩
    rw [← contains_duplicates_eq_false] at h1
    rw [h1] at hdup
    cases hdup
  · simp only [false_iff]
    simp only [Bool.not_eq_true'] at hall
    rintro ⟨-, hlen, -⟩
    have : a.all (fun p => p.2.length == p.1.length) = true := by
      rw [List.all_eq_true]
      intro p hp
      simpa using hlen p hp
    rw [this] at hall
    cases hall
  · have hnd : (a.map Prod.snd).Nodup :=
      contains_duplicates_eq_false.1 (Bool.not_eq_true _ ▸ hdup)
    simp only [Bool.not_eq_true'] at hall
    rw [Bool.not_eq_false] at hall
    have hlen : ∀ p ∈ a, (p.2 : Word).length = (p.1 : Variable).length := by
      intro p hp
      simpa using List.all_eq_true.1 hall p hp
    constructor
    · intro h
      refine ⟨hnd, hlen, ?_⟩
      intro pa hpa vb hvb wb hwb i j hov
      have h1 := List.all_eq_true.1 h pa hpa
      have h2 := List.all_eq_true.1 h1 vb hvb
      rw [hwb, hov] at h2
      simpa using h2
    · rintro ⟨-, -, h3⟩
      rw [List.all_eq_true]
      intro pa hpa
      rw [List.all_eq_true]
      intro vb hvb
      rcases hlk : lookupA a vb with _ | wb
      · simp
      · rcases hov : c.overlaps pa.1 vb with _ | ⟨i, j⟩
        · simp
        · simpa using h3 pa hpa vb hvb wb hlk i j hov

theorem mem_keysA {a : Assignment} {v : Variable} :
    v ∈ keysA a ↔ ∃ w, (v, w) ∈ a := by
  unfold keysA
  rw [List.mem_map]
  constructor
  · rintro ⟨p, hp, rfl⟩
    exact ⟨p.2, hp⟩
  · rintro ⟨w, hw⟩
    exact ⟨(v, w), hw, rfl⟩

/-- Pigeonhole: a duplicate-free assignment over the puzzle's variables
with as many entries as there are variables mentions every variable. -/
theorem keys_cover {c : Crossword} {a : Assignment}
    (hkeys : (keysA a).Nodup)
    (hlen : a.length = c.vars.length) (hsub : ∀ p ∈ a, p.1 ∈ c.vars) :
    ∀ v ∈ c.vars, v ∈ keysA a := by
  have hsub' : keysA a ⊆ c.vars := by
    intro v hv
    rw [keysA, List.mem_map] at hv
    rcases hv with ⟨p, hp, rfl⟩
    exact hsub p hp
  have hsp : (keysA a).Subperm c.vars := List.subperm_of_subset hkeys hsub'
  have hperm : (keysA a).Perm c.vars := by
    apply hsp.perm_of_length_le
    simp [keysA, hlen]
  intro v hv
  exact hperm.mem_iff.2 hv

theorem consistent_nil (c : Crossword) : consistent c [] = true := by
  rw [consistent_true_iff]
  refine ⟨List.nodup_nil, ?_, ?_⟩ <;> simp

/-! ### Backtracking search lemmas -/

/-- Any solution returned by the value loop comes from a recursive call
on a consistent tentative assignment. -/
theorem btTry_some {c : Crossword} {rec : Assignment → Option Assignment × Assignment}
    {var : Variable} (Q : Assignment → Prop)
    (hrec : ∀ a1 s a2, consistent c a1 = true → rec a1 = (some s, a2) → Q s) :
    ∀ ws a s a2, btTry c rec var ws a = (some s, a2) → Q s := by
  intro ws
  induction ws with
  | nil =>
      intro a s a2 h
      rw [btTry] at h
      cases h
  | cons w rest ih =>
      intro a s a2 h
      rw [btTry] at h
      by_cases hc : consistent c (insertA a var w) = true
      · rw [if_pos hc] at h
        rcases hre : rec (insertA a var w) with ⟨sol, afin⟩
        rw [hre] at h
        cases sol with
        | none => exact ih _ _ _ h
        | some s1 =>
            simp only at h
            by_cases hemp : s1.isEmpty = true
            · rw [if_pos hemp] at h
              exact ih _ _ _ h
            · rw [if_neg hemp] at h
              injection h with h1 h2
              injection h1 with h1
              rw [← h1]
              exact hrec _ _ _ hc hre
      · rw [if_neg hc] at h
        exact ih _ _ _ h

theorem btGo_some_complete {c : Crossword} {d : Domains} :
    ∀ fuel a s a2, btGo c d fuel a = (some s, a2) →
      assignment_complete c s = true := by
  intro fuel
  induction fuel with
  | zero =>
      intro a s a2 h
      rw [btGo] at h
      cases h
  | succ n ih =>
      intro a s a2 h
      rw [btGo] at h
      by_cases hcomp : assignment_complete c a = true
      · rw [if_pos hcomp] at h
        injection h with h1 h2
        injection h1 with h1
        rw [← h1]
        exact hcomp
      · rw [if_neg hcomp] at h
        rcases hsel : select_unassigned_variable c d a with _ | var
        · rw [hsel] at h
          cases h
        · rw [hsel] at h
          exact btTry_some _ (fun a1 s1 a2' _ hre => ih a1 s1 a2' hre) _ a s a2 h

/-- Solutions of `backtrack` from a consistent start are consistent. -/
theorem btGo_some_consistent {c : Crossword} {d : Domains} :
    ∀ fuel a s a2, consistent c a = true → btGo c d fuel a = (some s, a2) →
      consistent c s = true := by
  intro fuel
  induction fuel with
  | zero =>
      intro a s a2 _ h
      rw [btGo] at h
      cases h
  | succ n ih =>
      intro a s a2 hcons h
      rw [btGo] at h
      by_cases hcomp : assignment_complete c a = true
      · rw [if_pos hcomp] at h
        injection h with h1 h2
        injection h1 with h1
        rw [← h1]
        exact hcons
      · rw [if_neg hcomp] at h
        rcases hsel : select_unassigned_variable c d a with _ | var
        · rw [hsel] at h
          cases h
        · rw [hsel] at h
          exact btTry_some _ (fun a1 s1 a2' hc hre => ih a1 s1 a2' hc hre) _ a s a2 h

/-- If the value loop fails, the shared assignment is back to its state
at entry (every tentative insert has been erased). -/
theorem btTry_none_state {c : Crossword} {rec : Assignment → Option Assignment × Assignment}
    {var : Variable} {a : Assignment}
    (hvar : lookupA a var = none)
    (hrecN : ∀ a1 a2, rec a1 = (none, a2) → a2 = a1)
    (hrecS : ∀ a1 s a2, rec a1 = (some s, a2) → s ≠ []) :
    ∀ ws a2, btTry c rec var ws a = (none, a2) → a2 = a := by
  have hins : ∀ w : Word, eraseA (insertA a var w) var = a :=
    fun w => eraseA_insertA w (lookupA_eq_none.1 hvar)
  intro ws
  induction ws with
  | nil =>
      intro a2 h
      rw [btTry] at h
      injection h with _ h2
      exact h2.symm
  | cons w rest ih =>
      intro a2 h
      rw [btTry] at h
      by_cases hc : consistent c (insertA a var w) = true
      · rw [if_pos hc] at h
        rcases hre : rec (insertA a var w) with ⟨sol, afin⟩
        rw [hre] at h
        cases sol with
        | none =>
            have hst : afin = insertA a var w := hrecN _ _ hre
            simp only at h
            rw [hst, hins w] at h
            exact ih _ h
        | some s1 =>
            simp only at h
            have hne := hrecS _ _ _ hre
            have hemp : s1.isEmpty = false := by
              cases s1 with
              | nil => exact absurd rfl hne
              | cons p ps => rfl
            rw [hemp] at h
            simp only [Bool.false_eq_true, if_false] at h
            cases h
      · rw [if_neg hc] at h
        rw [hins w] at h
        exact ih _ h

/-- Failure of `backtrack` leaves the assignment exactly as at entry. -/
theorem btGo_none_state {c : Crossword} {d : Domains} :
    ∀ fuel a a2, btGo c d fuel a = (none, a2) → a2 = a := by
  intro fuel
  induction fuel with
  | zero =>
      intro a a2 h
      rw [btGo] at h
      injection h with _ h2
      exact h2.symm
  | succ n ih =>
      intro a a2 h
      rw [btGo] at h
      by_cases hcomp : assignment_complete c a = true
      · rw [if_pos hcomp] at h
        cases h
      · rw [if_neg hcomp] at h
        rcases hsel : select_unassigned_variable c d a with _ | var
        · rw [hsel] at h
          injection h with _ h2
          exact h2.symm
        · rw [hsel] at h
          have hv := select_some hsel
          refine btTry_none_state hv.2 (fun a1 a2' hre => ih a1 a2' hre) ?_ _ _ h
          intro a1 s a2' hre hnil
          have hcompl := btGo_some_complete _ a1 s a2' hre
          rw [hnil, assignment_complete_iff] at hcompl
          have hvnil : c.vars = [] := List.eq_nil_of_length_eq_zero hcompl.1.symm
          rw [hvnil] at hv
          exact absurd hv.1 (by simp)

theorem btGo_some_ne_nil {c : Crossword} {d : Domains} {n : Nat}
    (hvars : c.vars ≠ []) :
    ∀ a1 s a2, btGo c d n a1 = (some s, a2) → s ≠ [] := by
  intro a1 s a2 hre hnil
  have hcompl := btGo_some_complete _ a1 s a2 hre
  rw [hnil, assignment_complete_iff] at hcompl
  exact hvars (List.eq_nil_of_length_eq_zero hcompl.1.symm)

/-- Version of `btTry_some` for properties that mention the entry
assignment: the loop always returns to the entry state before the next
iteration, so it suffices to know the property for solutions of the
recursive call on each tentative extension of the entry state. -/
theorem btTry_some_fixed {c : Crossword} {rec : Assignment → Option Assignment × Assignment}
    {var : Variable} {a : Assignment} (Q : Assignment → Prop)
    (hvar : lookupA a var = none)
    (hrecN : ∀ a1 a2, rec a1 = (none, a2) → a2 = a1)
    (hrecS : ∀ a1 s a2, rec a1 = (some s, a2) → s ≠ []) :
    ∀ ws, (∀ w ∈ ws, ∀ s a2, rec (insertA a var w) = (some s, a2) → Q s) →
      ∀ s a2, btTry c rec var ws a = (some s, a2) → Q s := by
  have hins : ∀ w : Word, eraseA (insertA a var w) var = a :=
    fun w => eraseA_insertA w (lookupA_eq_none.1 hvar)
  intro ws
  induction ws with
  | nil =>
      intro _ s a2 h
      rw [btTry] at h
      cases h
  | cons w rest ih =>
      intro hws s a2 h
      rw [btTry] at h
      by_cases hc : consistent c (insertA a var w) = true
      · rw [if_pos hc] at h
        rcases hre : rec (insertA a var w) with ⟨sol, afin⟩
        rw [hre] at h
        cases sol with
        | none =>
            have hst : afin = insertA a var w := hrecN _ _ hre
            simp only at h
            rw [hst, hins w] at h
            exact ih (fun w' hw' => hws w' (List.mem_cons_of_mem _ hw')) s a2 h
        | some s1 =>
            simp only at h
            have hemp : s1.isEmpty = false := by
              cases s1 with
              | nil => exact absurd rfl (hrecS _ _ _ hre)
              | cons p ps => rfl
            rw [hemp] at h
            simp only [Bool.false_eq_true, if_false] at h
            injection h with h1 h2
            injection h1 with h1
            rw [← h1]
            exact hws w (List.mem_cons_self _ _) s1 afin hre
      · rw [if_neg hc] at h
        rw [hins w] at h
        exact ih (fun w' hw' => hws w' (List.mem_cons_of_mem _ hw')) s a2 h

/-- Every entry of a solution is either an entry of the starting
assignment or a domain word of its (puzzle) variable. -/
theorem btGo_some_values {c : Crossword} {d : Domains} :
    ∀ fuel a s a2, btGo c d fuel a = (some s, a2) →
      ∀ p ∈ s, p ∈ a ∨ (p.2 ∈ d p.1 ∧ p.1 ∈ c.vars) := by
  intro fuel
  induction fuel with
  | zero =>
      intro a s a2 h
      rw [btGo] at h
      cases h
  | succ n ih =>
      intro a s a2 h
      rw [btGo] at h
      by_cases hcomp : assignment_complete c a = true
      · rw [if_pos hcomp] at h
        injection h with h1 _
        injection h1 with h1
        rw [← h1]
        intro p hp
        exact Or.inl hp
      · rw [if_neg hcomp] at h
        rcases hsel : select_unassigned_variable c d a with _ | var
        · rw [hsel] at h
          cases h
        · rw [hsel] at h
          have hv := select_some hsel
          have hvars : c.vars ≠ [] := by
            intro hnil
            rw [hnil] at hv
            exact absurd hv.1 (by simp)
          refine btTry_some_fixed
            (fun s' => ∀ p ∈ s', p ∈ a ∨ (p.2 ∈ d p.1 ∧ p.1 ∈ c.vars))
            hv.2 (fun a1 a2' hre => btGo_none_state _ _ _ hre)
            (btGo_some_ne_nil hvars) _ ?_ s a2 h
          intro w hw s1 a2' hre p hp
          rcases ih _ _ _ hre p hp with hp1 | hp1
          · rcases mem_insertA hp1 with hp2 | hp2
            · exact Or.inl hp2
            · right
              rw [hp2]
              exact ⟨mem_order_domain_values hw, hv.1⟩
          · exact Or.inr hp1

/-- Backtracking preserves duplicate-freeness of the key list. -/
theorem btGo_some_keysNodup {c : Crossword} {d : Domains} :
    ∀ fuel a s a2, (keysA a).Nodup → btGo c d fuel a = (some s, a2) →
      (keysA s).Nodup := by
  intro fuel
  induction fuel with
  | zero =>
      intro a s a2 _ h
      rw [btGo] at h
      cases h
  | succ n ih =>
      intro a s a2 hnd h
      rw [btGo] at h
      by_cases hcomp : assignment_complete c a = true
      · rw [if_pos hcomp] at h
        injection h with h1 _
        injection h1 with h1
        rw [← h1]
        exact hnd
      · rw [if_neg hcomp] at h
        rcases hsel : select_unassigned_variable c d a with _ | var
        · rw [hsel] at h
          cases h
        · rw [hsel] at h
          have hv := select_some hsel
          have hvars : c.vars ≠ [] := by
            intro hnil
            rw [hnil] at hv
            exact absurd hv.1 (by simp)
          have hnotin : var ∉ keysA a := lookupA_eq_none.1 hv.2
          refine btTry_some_fixed (fun s' => (keysA s').Nodup)
            hv.2 (fun a1 a2' hre => btGo_none_state _ _ _ hre)
            (btGo_some_ne_nil hvars) _ ?_ s a2 h
          intro w hw s1 a2' hre
          apply ih _ _ _ ?_ hre
          rw [keysA_insertA_not_mem w hnotin, List.nodup_append]
          refine ⟨hnd, List.nodup_singleton _, ?_⟩
          intro x hx hmem
          rw [List.mem_singleton] at hmem
          rw [hmem] at hx
          exact hnotin hx

/-- The value loop only probes the recursive call at tentative
extensions of the entry assignment, so two recursion implementations
agreeing there yield identical loops. -/
theorem btTry_congr {c : Crossword} {rec1 rec2 : Assignment → Option Assignment × Assignment}
    {var : Variable} {a : Assignment}
    (hvar : lookupA a var = none)
    (hrecN : ∀ a1 a2, rec1 a1 = (none, a2) → a2 = a1)
    (hrecS : ∀ a1 s a2, rec1 a1 = (some s, a2) → s ≠ [])
    (heq : ∀ w : Word, rec1 (insertA a var w) = rec2 (insertA a var w)) :
    ∀ ws, btTry c rec1 var ws a = btTry c rec2 var ws a := by
  have hins : ∀ w : Word, eraseA (insertA a var w) var = a :=
    fun w => eraseA_insertA w (lookupA_eq_none.1 hvar)
  intro ws
  induction ws with
  | nil => rw [btTry, btTry]
  | cons w rest ih =>
      rw [btTry, btTry]
      by_cases hc : consistent c (insertA a var w) = true
      · rw [if_pos hc, if_pos hc]
        rw [← heq w]
        rcases hre : rec1 (insertA a var w) with ⟨sol, afin⟩
        cases sol with
        | none =>
            simp only
            rw [hrecN _ _ hre, hins w]
            exact ih
        | some s1 =>
            have hemp : s1.isEmpty = false := by
              cases s1 with
              | nil => exact absurd rfl (hrecS _ _ _ hre)
              | cons p ps => rfl
            simp only [hemp, Bool.false_eq_true, if_false]
      · rw [if_neg hc, if_neg hc]
        rw [hins w]
        exact ih

/-- Any fuel exceeding the number of still-unassigned variables gives
the same result: backtracking genuinely terminates within that depth. -/
theorem btGo_fuel_inv {c : Crossword} {d : Domains} :
    ∀ f1 f2 a, (keysA a).Nodup → (∀ v ∈ keysA a, v ∈ c.vars) →
      c.vars.length < f1 + a.length → c.vars.length < f2 + a.length →
      btGo c d f1 a = btGo c d f2 a := by
  have hbound : ∀ a : Assignment, (keysA a).Nodup → (∀ v ∈ keysA a, v ∈ c.vars) →
      a.length ≤ c.vars.length := by
    intro a hnd hsub
    have hsp := List.subperm_of_subset hnd hsub
    have := hsp.length_le
    rwa [keysA, List.length_map] at this
  intro f1
  induction f1 with
  | zero =>
      intro f2 a hnd hsub h1 h2
      exact absurd (hbound a hnd hsub) (by omega)
  | succ n ih =>
      intro f2 a hnd hsub h1 h2
      match f2 with
      | 0 => exact absurd (hbound a hnd hsub) (by omega)
      | m + 1 =>
          rw [btGo, btGo]
          by_cases hcomp : assignment_complete c a = true
          · rw [if_pos hcomp, if_pos hcomp]
          · rw [if_neg hcomp, if_neg hcomp]
            rcases hsel : select_unassigned_variable c d a with _ | var
            · simp only
            · simp only
              have hv := select_some hsel
              have hvars : c.vars ≠ [] := by
                intro hnil
                rw [hnil] at hv
                exact absurd hv.1 (by simp)
              have hnotin : var ∉ keysA a := lookupA_eq_none.1 hv.2
              apply btTry_congr hv.2
                (fun a1 a2' hre => btGo_none_state _ _ _ hre)
                (btGo_some_ne_nil hvars)
              intro w
              apply ih
              · rw [keysA_insertA_not_mem w hnotin, List.nodup_append]
                refine ⟨hnd, List.nodup_singleton _, ?_⟩
                intro x hx hmem
                rw [List.mem_singleton] at hmem
                rw [hmem] at hx
                exact hnotin hx
              · rw [keysA_insertA_not_mem w hnotin]
                intro v hvmem
                rcases List.mem_append.1 hvmem with hvmem | hvmem
                · exact hsub v hvmem
                · rw [List.mem_singleton] at hvmem
                  rw [hvmem]
                  exact hv.1
              · rw [length_insertA_not_mem w hnotin]
                omega
              · rw [length_insertA_not_mem w hnotin]
                omega

/-! ### Concrete puzzles used by witnesses and counterexamples -/

/-- A single across slot of length 3. -/
def vA : Variable := ⟨0, 0, Direction.across, 3⟩

/-- One variable, one fitting word: solvable. -/
def cSolo : Crossword := ⟨[vA], [['c','a','t']], fun _ _ => none⟩

/-- A single across slot of length 5. -/
def vE : Variable := ⟨0, 0, Direction.across, 5⟩

/-- One isolated variable whose domain empties under node consistency
(the only word is too short). -/
def cEmpty : Crossword := ⟨[vE], [['a','b']], fun _ _ => none⟩

def vX : Variable := ⟨0, 0, Direction.across, 2⟩
def vY : Variable := ⟨0, 1, Direction.down, 2⟩

/-- Two crossing length-2 slots (shared cell: offset 1 of `vX`, offset 0
of `vY`) with a word list admitting no compatible pair: AC-3 empties a
domain and reports failure. -/
def cClash : Crossword :=
  ⟨[vX, vY], [['a','b'],['c','d']],
   fun u v =>
     if u = vX ∧ v = vY then some (1, 0)
     else if u = vY ∧ v = vX then some (0, 1)
     else none⟩

def vC1 : Variable := ⟨0, 0, Direction.across, 3⟩
def vC2 : Variable := ⟨0, 1, Direction.down, 3⟩

/-- Two crossing length-3 slots ("CAT"/"AGE" share the letter A at
offset 1 of the across slot, offset 0 of the down slot): solvable. -/
def cCross : Crossword :=
  ⟨[vC1, vC2], [['c','a','t'],['t','i','e'],['d','o','g'],['a','g','e']],
   fun u v =>
     if u = vC1 ∧ v = vC2 then some (1, 0)
     else if u = vC2 ∧ v = vC1 then some (0, 1)
     else none⟩

def vP : Variable := ⟨0, 0, Direction.across, 2⟩
def vQ : Variable := ⟨0, 0, Direction.down, 2⟩
def vR : Variable := ⟨1, 0, Direction.across, 2⟩

/-- A three-slot chain `vP – vQ – vR`: `vQ` has two neighbors, the
others one each; used to exercise the degree tie-break. -/
def cChain : Crossword :=
  ⟨[vP, vQ, vR], [['a','b'],['c','b']],
   fun u v =>
     if u = vP ∧ v = vQ then some (0, 0)
     else if u = vQ ∧ v = vP then some (0, 0)
     else if u = vQ ∧ v = vR then some (1, 0)
     else if u = vR ∧ v = vQ then some (0, 1)
     else none⟩

theorem keys_length_le {c : Crossword} {a : Assignment}
    (hnd : (keysA a).Nodup) (hsub : ∀ v ∈ keysA a, v ∈ c.vars) :
    a.length ≤ c.vars.length := by
  have hsp := List.subperm_of_subset hnd hsub
  have := hsp.length_le
  rwa [keysA, List.length_map] at this

/-! ### Claims -/

/-- C1: every non-`None` assignment returned by `solve()` (backtracking
from the empty assignment) satisfies both `assignment_complete` and
`consistent`: it assigns exactly one word to every variable of the
puzzle (every variable gets a word, every key is a puzzle variable and
keys are duplicate-free), all assigned words are pairwise distinct, each
assigned word's length equals its variable's length, and every pair of
assigned variables with a non-null overlap agrees at the overlap
offsets. -/
theorem C1_solve_sound (c : Crossword) (hwf : WF c) (r : Assignment)
    (h : solve c = some r) :
    assignment_complete c r = true ∧ consistent c r = true ∧
    (∀ v ∈ c.vars, ∃ w : Word, (v, w) ∈ r) ∧
    (∀ p ∈ r, (Prod.fst p) ∈ c.vars) ∧ (keysA r).Nodup ∧
    (r.map Prod.snd).Nodup ∧
    (∀ p ∈ r, (Prod.snd p : Word).length = (Prod.fst p : Variable).length) ∧
    (∀ p ∈ r, ∀ q ∈ r, ∀ i j,
       c.overlaps (Prod.fst p) (Prod.fst q) = some (i, j) →
       charAt (Prod.snd p) i = charAt (Prod.snd q) j) := by
  unfold solve at h
  simp only at h
  rcases hac : ac3 c (enforce_node_consistency c (initDomains c)) none with _ | ⟨b, d2⟩
  · rw [hac] at h
    cases h
  · rw [hac] at h
    simp only at h
    rcases hbt : btGo c d2 (c.vars.length + 1) [] with ⟨sol, afin⟩
    rw [hbt] at h
    simp only at h
    subst h
    have hcomp := btGo_some_complete _ [] r afin hbt
    have hcons := btGo_some_consistent _ [] r afin (consistent_nil c) hbt
    have hkeys : (keysA r).Nodup :=
      btGo_some_keysNodup _ [] r afin (by simp [keysA]) hbt
    rw [assignment_complete_iff] at hcomp
    have hsub := hcomp.2
    have hcov := keys_cover hkeys hcomp.1 hsub
    rw [consistent_true_iff] at hcons
    rcases hcons with ⟨hnd, hlens, hagree⟩
    refine ⟨by rw [assignment_complete_iff]; exact hcomp, ?_, ?_, hsub, hkeys, hnd, hlens, ?_⟩
    · rw [consistent_true_iff]
      exact ⟨hnd, hlens, hagree⟩
    · intro v hv
      exact mem_keysA.1 (hcov v hv)
    · intro p hp q hq i j hov
      have hp1 : p.1 ∈ c.vars := hsub p hp
      have hq1 : q.1 ∈ c.vars := hsub q hq
      have hnb : q.1 ∈ neighbors c p.1 := by
        rw [mem_neighbors]
        exact ⟨hq1, overlaps_ne hwf hp1 hov, by rw [hov]; rfl⟩
      have hlk : lookupA r q.1 = some q.2 :=
        mem_lookupA hkeys (by simpa using hq)
      exact hagree p hp q.1 hnb q.2 hlk i j hov

/-- C1 witness: the crossing puzzle `cCross` is solved by CAT/AGE and
that solution passes `consistent`. -/
theorem C1_witness :
    consistent cCross [(vC1, ['c','a','t']), (vC2, ['a','g','e'])] = true :=
  (C1_solve_sound cCross (by decide)
    [(vC1, ['c','a','t']), (vC2, ['a','g','e'])] (by decide)).2.1

/-- C2: if `ac3` is called with `arcs = None` (queue seeded with every
ordered neighbor pair) and returns success, then afterwards every
ordered pair of puzzle variables `(x, y)` with a non-null overlap
`(i, j)` is arc consistent: every word in the final domain of `x` has at
least one word in the final domain of `y` agreeing at the offsets. -/
theorem C2_ac3_postcondition (c : Crossword) (hwf : WF c) (d d2 : Domains)
    (h : ac3 c d none = some (true, d2)) :
    ∀ x ∈ c.vars, ∀ y ∈ c.vars, ∀ i j, c.overlaps x y = some (i, j) →
      ∀ wx ∈ d2 x, ∃ wy ∈ d2 y, charAt wx i = charAt wy j := by
  intro x hx y hy i j hov
  exact ac3_arcCon hwf h x y i j hx hy hov

/-- C2 witness: on the crossing puzzle, `ac3` succeeds and the surviving
words of the across slot all have a partner in the down slot. -/
theorem C2_witness :
    ∃ d2 : Domains,
      ac3 cCross (enforce_node_consistency cCross (initDomains cCross)) none
        = some (true, d2) ∧
      ∀ wx ∈ d2 vC1, ∃ wy ∈ d2 vC2, charAt wx 1 = charAt wy 0 := by
  rcases hac : ac3 cCross (enforce_node_consistency cCross (initDomains cCross)) none
    with _ | ⟨b, d2⟩
  · have hs := ac3_isSome_default cCross (enforce_node_consistency cCross (initDomains cCross))
    rw [hac] at hs
    cases hs
  · have hb : b = true := by
      have hfst : (ac3 cCross (enforce_node_consistency cCross (initDomains cCross)) none).map
          Prod.fst = some true := by decide
      rw [hac] at hfst
      simpa using hfst
    subst hb
    exact ⟨d2, rfl,
      C2_ac3_postcondition cCross (by decide) _ d2 hac vC1 (by decide) vC2 (by decide)
        1 0 (by decide)⟩

/-- C3 counterexample: in `cEmpty` the single variable's domain is empty
after node consistency, yet `ac3` (default arcs) returns `True` — the
variable has no neighbors, so no revision ever notices the empty domain.
`solve` still returns `None`. -/
theorem C3_counterexample :
    vE ∈ cEmpty.vars ∧
    enforce_node_consistency cEmpty (initDomains cEmpty) vE = [] ∧
    (ac3 cEmpty (enforce_node_consistency cEmpty (initDomains cEmpty)) none).map Prod.fst
      = some true ∧
    solve cEmpty = none := by decide

/-- C3 (amended): if some puzzle variable's domain is empty after node
consistency then `solve` returns `None` (`ac3` need not return `False`:
an isolated empty domain goes unnoticed by the revision loop). -/
theorem C3_amended_solve_none (c : Crossword) (v : Variable)
    (hv : v ∈ c.vars)
    (hemp : enforce_node_consistency c (initDomains c) v = []) :
    solve c = none := by
  unfold solve
  simp only
  rcases hac : ac3 c (enforce_node_consistency c (initDomains c)) none with _ | ⟨b, d2⟩
  · rfl
  · simp only
    rcases hbt : btGo c d2 (c.vars.length + 1) [] with ⟨sol, afin⟩
    simp only
    cases sol with
    | none => rfl
    | some r =>
        exfalso
        have hd2 : d2 v = [] := by
          have hsubs := ac3_subset hac v
          rw [hemp] at hsubs
          exact List.eq_nil_iff_forall_not_mem.2 fun w hw => (List.not_mem_nil w) (hsubs hw)
        have hcomp := btGo_some_complete _ [] r afin hbt
        have hkeys := btGo_some_keysNodup _ [] r afin (by simp [keysA]) hbt
        rw [assignment_complete_iff] at hcomp
        have hcov := keys_cover hkeys hcomp.1 hcomp.2 v hv
        rcases mem_keysA.1 hcov with ⟨w, hwmem⟩
        rcases btGo_some_values _ [] r afin hbt (v, w) hwmem with h0 | ⟨hdom, _⟩
        · cases h0
        · rw [hd2] at hdom
          cases hdom

/-- C3 witness: the amended statement applied to `cEmpty`. -/
theorem C3_witness : solve cEmpty = none :=
  C3_amended_solve_none cEmpty vE (by decide) (by decide)

/-- C4 (evaluation at the failing input): on `cClash`, AC-3 with default
arcs returns `False`, and `solve` — whose body discards that boolean and
unconditionally calls `backtrack` — still returns `None` because the
emptied domain leaves nothing to assign. -/
theorem C4_evaluation :
    (ac3 cClash (enforce_node_consistency cClash (initDomains cClash)) none).map Prod.fst
      = some false ∧
    solve cClash = none := by decide

/-- C5: `revise(x, y)` returns `False` and changes nothing when there is
no overlap; with overlap `(i, j)` it replaces `domain(x)` by exactly the
words having a support in `domain(y)`, leaves every other variable's
domain unchanged, and returns `True` iff at least one word had no
support (i.e. was removed). -/
theorem C5_revise_spec (c : Crossword) (d : Domains) (x y : Variable) :
    (c.overlaps x y = none → revise c d x y = (false, d)) ∧
    (∀ i j, c.overlaps x y = some (i, j) →
      ((revise c d x y).2 x =
          (d x).filter (fun wx => hasSupport (d y) wx i j) ∧
       (∀ z, z ≠ x → (revise c d x y).2 z = d z) ∧
       ((revise c d x y).1 = true ↔
          ∃ wx ∈ d x, ∀ wy ∈ d y, charAt wx i ≠ charAt wy j))) := by
  refine ⟨revise_none, ?_⟩
  intro i j hov
  exact ⟨revise_snd_x hov, fun z hz => revise_snd_other hz, revise_fst_true hov⟩

/-- C5 witness: no overlap on `cSolo` leaves everything unchanged; on
`cCross` the first revision does remove unsupported words. -/
theorem C5_witness :
    revise cSolo (initDomains cSolo) vA vA = (false, initDomains cSolo) ∧
    ((revise cCross (initDomains cCross) vC1 vC2).1 = true ↔
      ∃ wx ∈ initDomains cCross vC1, ∀ wy ∈ initDomains cCross vC2,
        charAt wx 1 ≠ charAt wy 0) :=
  ⟨(C5_revise_spec cSolo (initDomains cSolo) vA vA).1 rfl,
   ((C5_revise_spec cCross (initDomains cCross) vC1 vC2).2 1 0 (by decide)).2.2⟩

/-- C6: whenever a `backtrack` call fails (returns `None`), the shared
assignment is exactly as it was at entry to that call — every tentative
entry written by the frame or the frames beneath it has been removed. -/
theorem C6_backtrack_restores_state (c : Crossword) (d : Domains) (fuel : Nat)
    (a a2 : Assignment) (h : btGo c d fuel a = (none, a2)) : a2 = a :=
  btGo_none_state fuel a a2 h

/-- C6 witness: a failing search on `cClash` from a one-entry assignment
hands back exactly that assignment. -/
theorem C6_witness : ([(vX, ['a','b'])] : Assignment) = [(vX, ['a','b'])] :=
  C6_backtrack_restores_state cClash
    (enforce_node_consistency cClash (initDomains cClash)) 2
    [(vX, ['a','b'])] [(vX, ['a','b'])] (by decide)

/-- C7: after `enforce_node_consistency`, each puzzle variable's domain
is exactly the filtering of its previous domain to words of the
variable's length; hence all remaining words have the right length, and
re-running the pass changes nothing (idempotence). -/
theorem C7_node_consistency (c : Crossword) (d : Domains) :
    (∀ v ∈ c.vars, enforce_node_consistency c d v =
        (d v).filter (fun w => w.length == v.length)) ∧
    (∀ v ∈ c.vars, ∀ w ∈ enforce_node_consistency c d v, w.length = v.length) ∧
    enforce_node_consistency c (enforce_node_consistency c d) =
      enforce_node_consistency c d :=
  ⟨fun _ hv => enforce_mem hv, fun _ hv _ hw => enforce_length hv hw,
   enforce_idem c d⟩

/-- C7 witness: on `cEmpty`, node consistency filters the lone domain
down to the words of length 5 (none). -/
theorem C7_witness :
    enforce_node_consistency cEmpty (initDomains cEmpty) vE
      = ((initDomains cEmpty) vE).filter (fun w => w.length == vE.length) :=
  (C7_node_consistency cEmpty (initDomains cEmpty)).1 vE (by decide)

/-- C8: no operation on the solve path can raise.  (i) AC-3 with default
arcs always terminates normally (its work loop never exhausts the
provided fuel); (ii) backtracking terminates within recursion depth
`|variables| + 1` — extra fuel never changes the result, so exhaustion
surfaces as `None`, not as a fault; (iii) after node consistency and
propagation, every overlap offset indexes within every remaining domain
word, so the indexing in `revise` is in range; (iv) the indexing in
`consistent`'s overlap check is in range whenever every assigned word
has its variable's length (which conditions (iii) and the domain-origin
of assigned words guarantee on the solve path); (v) variable selection
(`min` in Python) never sees an empty candidate list while the
assignment is incomplete. -/
theorem C8_no_faults (c : Crossword) (hwf : WF c) :
    (ac3 c (enforce_node_consistency c (initDomains c)) none).isSome ∧
    (∀ b d2, ac3 c (enforce_node_consistency c (initDomains c)) none = some (b, d2) →
       ∀ k, btGo c d2 (c.vars.length + 1 + k) [] = btGo c d2 (c.vars.length + 1) []) ∧
    (∀ b d2, ac3 c (enforce_node_consistency c (initDomains c)) none = some (b, d2) →
       ∀ x ∈ c.vars, ∀ y ∈ c.vars, ∀ i j, c.overlaps x y = some (i, j) →
         ∀ w ∈ d2 x, i < w.length) ∧
    (∀ a : Assignment, (∀ p ∈ a, (Prod.fst p) ∈ c.vars) →
       (∀ p ∈ a, (Prod.snd p : Word).length = (Prod.fst p : Variable).length) →
       ∀ p ∈ a, ∀ vb ∈ neighbors c (Prod.fst p), ∀ i j,
         c.overlaps (Prod.fst p) vb = some (i, j) → i < (Prod.snd p : Word).length) ∧
    (∀ (d : Domains) (a : Assignment), (keysA a).Nodup →
       (∀ v ∈ keysA a, v ∈ c.vars) → assignment_complete c a = false →
       (select_unassigned_variable c d a).isSome) := by
  refine ⟨ac3_isSome_default _ _, ?_, ?_, ?_, ?_⟩
  · intro b d2 hac k
    apply btGo_fuel_inv
    · simp [keysA]
    · simp [keysA]
    · simp only [List.length_nil]
      omega
    · simp only [List.length_nil]
      omega
  · intro b d2 hac x hx y hy i j hov w hw
    have hw1 : w ∈ enforce_node_consistency c (initDomains c) x := ac3_subset hac x hw
    have hlen := enforce_length hx hw1
    have hb := hwf.2.2.2 x hx y hy
    rw [hov] at hb
    simp at hb
    rw [hlen]
    exact hb.1
  · intro a hsub hlen p hp vb hvb i j hov
    have hp1 : p.1 ∈ c.vars := hsub p hp
    have hb1 : vb ∈ c.vars := (mem_neighbors.1 hvb).1
    have hb := hwf.2.2.2 p.1 hp1 vb hb1
    rw [hov] at hb
    simp at hb
    rw [hlen p hp]
    exact hb.1
  · intro d a hnd hsub hfalse
    unfold select_unassigned_variable
    simp only
    rcases hfil : c.vars.filter (fun v => (lookupA a v).isNone) with _ | ⟨v, vs⟩
    · exfalso
      have hvk : ∀ u ∈ c.vars, u ∈ keysA a := by
        intro u hu
        by_contra huk
        have hnone : (lookupA a u).isNone := by
          rw [Option.isNone_iff_eq_none, lookupA_eq_none]
          exact huk
        have hmem : u ∈ c.vars.filter (fun v => (lookupA a v).isNone) :=
          List.mem_filter.2 ⟨hu, by simpa using hnone⟩
        rw [hfil] at hmem
        cases hmem
      have h1 : c.vars.length ≤ a.length := by
        have hsp := List.subperm_of_subset hwf.1 hvk
        have hle := hsp.length_le
        rwa [keysA, List.length_map] at hle
      have h2 : a.length ≤ c.vars.length := keys_length_le hnd hsub
      have hcomp : assignment_complete c a = true := by
        rw [assignment_complete_iff]
        refine ⟨le_antisymm h2 h1, ?_⟩
        intro p hp
        exact hsub p.1 (List.mem_map_of_mem Prod.fst hp)
      rw [hcomp] at hfalse
      cases hfalse
    · simp [pyMinBy]

/-- C8 witness: on the crossing puzzle, AC-3 with default arcs returns
normally. -/
theorem C8_witness :
    (ac3 cCross (enforce_node_consistency cCross (initDomains cCross)) none).isSome :=
  (C8_no_faults cCross (by decide)).1

/-- C9: `assignment_complete` returns `True` iff the assignment has
exactly one entry for every puzzle variable and every entry is for a
puzzle variable.  (The Python `is None` value test is vacuous here:
entries always hold actual words.) -/
theorem C9_assignment_complete_iff (c : Crossword) (a : Assignment)
    (hkeys : (keysA a).Nodup) (hvars : c.vars.Nodup) :
    (assignment_complete c a = true ↔
      ((∀ v ∈ c.vars, (keysA a).count v = 1) ∧
       ∀ p ∈ a, (Prod.fst p) ∈ c.vars)) := by
  rw [assignment_complete_iff]
  constructor
  · rintro ⟨hlen, hsub⟩
    refine ⟨?_, hsub⟩
    intro v hv
    have hcov := keys_cover hkeys hlen hsub v hv
    exact List.count_eq_one_of_mem hkeys hcov
  · rintro ⟨hcount, hsub⟩
    have hsub1 : keysA a ⊆ c.vars := by
      intro v hv
      rcases mem_keysA.1 hv with ⟨w, hw⟩
      exact hsub (v, w) hw
    have hsub2 : c.vars ⊆ keysA a := by
      intro v hv
      have hc := hcount v hv
      have : 0 < (keysA a).count v := by omega
      exact List.count_pos_iff.1 this
    refine ⟨?_, hsub⟩
    have hperm : (keysA a).Perm c.vars := by
      apply (List.subperm_of_subset hkeys hsub1).perm_of_length_le
      exact (List.subperm_of_subset hvars hsub2).length_le
    have hleq := hperm.length_eq
    rwa [keysA, List.length_map] at hleq

/-- C9 witness: the CAT/AGE assignment on the crossing puzzle is
complete. -/
theorem C9_witness :
    assignment_complete cCross [(vC1, ['c','a','t']), (vC2, ['a','g','e'])] = true :=
  (C9_assignment_complete_iff cCross [(vC1, ['c','a','t']), (vC2, ['a','g','e'])]
    (by decide) (by decide)).mpr (by decide)

/-- C10: with exactly two unassigned variables of equal remaining-domain
size and different neighbor counts, `select_unassigned_variable` returns
the one with more neighbors (the MRV tie is broken by highest degree). -/
theorem C10_mrv_degree_tiebreak (c : Crossword) (d : Domains) (a : Assignment)
    (p q : Variable)
    (hfil : c.vars.filter (fun v => (lookupA a v).isNone) = [p, q])
    (hdom : (d p).length = (d q).length)
    (hdeg : (neighbors c p).length ≠ (neighbors c q).length) :
    select_unassigned_variable c d a =
      some (if (neighbors c p).length < (neighbors c q).length then q else p) := by
  unfold select_unassigned_variable
  simp only
  rw [hfil]
  simp only [pyMinBy, List.foldl_cons, List.foldl_nil]
  have hkey : keyLt ((d q).length, -((neighbors c q).length : Int))
      ((d p).length, -((neighbors c p).length : Int))
      = decide ((neighbors c p).length < (neighbors c q).length) := by
    unfold keyLt
    rw [hdom]
    simp only [lt_self_iff_false, decide_False, Bool.false_or, beq_self_eq_true,
      Bool.true_and]
    rw [decide_eq_decide]
    omega
  rw [hkey]
  by_cases h : (neighbors c p).length < (neighbors c q).length
  · simp [h]
  · simp [h]

/-- C10 witness: on the chain puzzle with `vR` assigned, `vP` and `vQ`
are the unassigned pair with equal domains; `vQ` (two neighbors) is
selected over `vP` (one neighbor). -/
theorem C10_witness :
    select_unassigned_variable cChain (initDomains cChain) [(vR, ['a','b'])]
      = some vQ := by
  have h := C10_mrv_degree_tiebreak cChain (initDomains cChain) [(vR, ['a','b'])]
    vP vQ (by decide) (by decide) (by decide)
  rw [h]
  decide
